import Mathlib

/-
Verification development for the heat-sheet parsing and timeline-estimation
core of the lssc-swim-app repository (src/main.py).

Strings are modelled as lists of characters.  The Python regular expressions
used by the source are small and deterministic (maximal-munch digit and
whitespace runs separated by literal delimiters), so each one is embedded as
an explicit character-list scanner.  Python floats are modelled by rational
numbers (exact decimal semantics); datetimes are modelled by the number of
seconds since local midnight, as a rational.
-/

namespace Swim

/-! ## Character classes (ASCII fragment of Python's regex classes) -/

/-- ASCII decimal digit, Python regex class d. -/
def isDigitC (c : Char) : Bool := 48 ≤ c.toNat && c.toNat ≤ 57

/-- Python regex whitespace class (ASCII part): space, tab, newline,
carriage return, vertical tab, form feed. -/
def isSpaceC (c : Char) : Bool :=
  c = ' ' || c = '\t' || c = '\n' || c = '\r' || c = Char.ofNat 11 || c = Char.ofNat 12

/-- ASCII letter. -/
def isAlphaC (c : Char) : Bool :=
  (65 ≤ c.toNat && c.toNat ≤ 90) || (97 ≤ c.toNat && c.toNat ≤ 122)

/-- The class [A-Za-z-] plus apostrophe, used by the swimmer-name pattern. -/
def isNameC (c : Char) : Bool := isAlphaC c || c = Char.ofNat 39 || c = '-'

/-- The class [A-Za-z.] of the optional middle-name part. -/
def isMidC (c : Char) : Bool := isAlphaC c || c = '.'

/-- Regex word character (for the word boundary after "Heat N"). -/
def isWordC (c : Char) : Bool := isAlphaC c || isDigitC c || c = '_'

/-- ASCII lower-casing, modelling str.lower on the ASCII range. -/
def lowerC (c : Char) : Char :=
  if 65 ≤ c.toNat && c.toNat ≤ 90 then Char.ofNat (c.toNat + 32) else c

/-- Numeric value of a run of decimal digits, modelling Python int() on a
digit string. -/
def digitsToNat (ds : List Char) : Nat :=
  ds.foldl (fun a c => 10 * a + (c.toNat - 48)) 0

/-- Python str.strip(): drop whitespace from both ends. -/
def pyStrip (cs : List Char) : List Char :=
  ((cs.dropWhile isSpaceC).reverse.dropWhile isSpaceC).reverse

/-- Python str.splitlines restricted to the newline separator (the only line
separator produced by the normalizer): split on newline characters, with no
empty trailing piece for a trailing newline, and no piece at all for the
empty string. -/
def splitNl : List Char → List (List Char)
  | [] => [[]]
  | c :: rest =>
    if c = '\n' then [] :: splitNl rest
    else
      match splitNl rest with
      | [] => [[c]]
      | l :: ls => (c :: l) :: ls

/-- Python-style splitlines (newline separator). -/
def splitLinesPy (cs : List Char) : List (List Char) :=
  match cs with
  | [] => []
  | _ =>
    let ps := splitNl cs
    if ps.getLast? = some [] then ps.dropLast else ps

/-! ## Deterministic scanning combinators

Each Python regex of the source is a sequence of literal pieces, maximal
digit runs, maximal whitespace runs and maximal negated-class runs, with no
genuine backtracking (each greedy run is followed by a character its class
excludes), so matching at a position is deterministic maximal munch; the
engine's scan tries successive start positions from the left. -/

/-- Match a literal prefix. -/
def litS (l cs : List Char) : Option (List Char) :=
  if cs.take l.length = l then some (cs.drop l.length) else none

/-- Match a literal prefix case-insensitively (for the re.I heat patterns). -/
def litCI (l cs : List Char) : Option (List Char) :=
  if (cs.take l.length).map lowerC = l then some (cs.drop l.length) else none

/-- Match a nonempty maximal run of characters satisfying p (regex p+). -/
def plus1 (p : Char → Bool) (cs : List Char) : Option (List Char × List Char) :=
  if (cs.takeWhile p).isEmpty then none else some (cs.takeWhile p, cs.dropWhile p)

/-! ## Field extractors (from _lane_from_line, _seed_from_line, _name_from_line)

Each embeds a re.search: try a match at each start position from the left,
first success wins. -/

/-- One attempt of the lane pattern at the current position: a nonempty digit
run followed only by whitespace up to the end of the line. -/
def tryLane (cs : List Char) : Option Nat :=
  (plus1 isDigitC cs).bind fun q =>
    if q.2.all isSpaceC then some (digitsToNat q.1) else none

/-- re.search for the lane pattern. -/
def laneScan : List Char → Option Nat
  | [] => none
  | c :: cs =>
    match tryLane (c :: cs) with
    | some n => some n
    | none => laneScan cs

/-- Source _lane_from_line: trailing integer of the line. -/
def laneFromLine (cs : List Char) : Option Nat := laneScan cs

/-- First alternative of the seed pattern: digits, colon, digits, dot,
digits. -/
def seedColon (cs : List Char) : Option (List Char) :=
  (plus1 isDigitC cs).bind fun q1 =>
  (litS [':'] q1.2).bind fun r2 =>
  (plus1 isDigitC r2).bind fun q3 =>
  (litS ['.'] q3.2).bind fun r4 =>
  (plus1 isDigitC r4).map fun q5 =>
    q1.1 ++ ':' :: q3.1 ++ '.' :: q5.1

/-- Second alternative of the seed pattern: digits, dot, digits. -/
def seedPlain (cs : List Char) : Option (List Char) :=
  (plus1 isDigitC cs).bind fun q1 =>
  (litS ['.'] q1.2).bind fun r2 =>
  (plus1 isDigitC r2).map fun q3 =>
    q1.1 ++ '.' :: q3.1

/-- re.search for the seed pattern (alternation tries the colon form first at
each position). -/
def seedScan : List Char → Option (List Char)
  | [] => none
  | c :: cs =>
    match seedColon (c :: cs) with
    | some m => some m
    | none =>
      match seedPlain (c :: cs) with
      | some m => some m
      | none => seedScan cs

/-- Source _seed_from_line. -/
def seedFromLine (cs : List Char) : Option (List Char) := seedScan cs

/-- One attempt of the swimmer-name pattern: name chars, comma, whitespace,
name chars, then an optional whitespace-plus-middle part. -/
def tryName (cs : List Char) : Option (List Char) :=
  (plus1 isNameC cs).bind fun q1 =>
  (litS [','] q1.2).bind fun r2 =>
  (plus1 isSpaceC r2).bind fun q3 =>
  (plus1 isNameC q3.2).map fun q4 =>
    match plus1 isSpaceC q4.2 with
    | none => q1.1 ++ ',' :: q3.1 ++ q4.1
    | some q5 =>
      match plus1 isMidC q5.2 with
      | none => q1.1 ++ ',' :: q3.1 ++ q4.1
      | some q6 => q1.1 ++ ',' :: q3.1 ++ q4.1 ++ q5.1 ++ q6.1

/-- re.search for the name pattern. -/
def nameScan : List Char → Option (List Char)
  | [] => none
  | c :: cs =>
    match tryName (c :: cs) with
    | some m => some m
    | none => nameScan cs

/-- Source _name_from_line: matched group, stripped. -/
def nameFromLine (cs : List Char) : Option (List Char) :=
  (nameScan cs).map pyStrip

/-! ## Numeric conversions (_t2s and helpers)

Python floats are modelled as exact rationals.  floatQ models the builtin
float() on plain decimal literals, the only form reachable in this pipeline
(exponent forms, inf, nan and digit underscores are not modelled). -/

/-- Body of a float literal after the optional sign: digits, optionally
followed by a dot and further digits; at least one digit in total. -/
def floatBody (sgn : ℚ) (cs : List Char) : Option ℚ :=
  match cs.dropWhile isDigitC with
  | [] =>
    if (cs.takeWhile isDigitC).isEmpty then none
    else some (sgn * (digitsToNat (cs.takeWhile isDigitC) : ℚ))
  | '.' :: r2 =>
    if (r2.dropWhile isDigitC).isEmpty then
      if (cs.takeWhile isDigitC).isEmpty && (r2.takeWhile isDigitC).isEmpty then none
      else
        some (sgn * ((digitsToNat (cs.takeWhile isDigitC) : ℚ) +
          (digitsToNat (r2.takeWhile isDigitC) : ℚ) / (10 : ℚ) ^ (r2.takeWhile isDigitC).length))
    else none
  | _ => none

/-- Python float() on a decimal literal: strip, optional sign, body. -/
def floatQ (cs : List Char) : Option ℚ :=
  match pyStrip cs with
  | '+' :: r => floatBody 1 r
  | '-' :: r => floatBody (-1) r
  | t => floatBody 1 t

/-- Python int() on a decimal literal: strip, optional sign, digit run. -/
def intZ (cs : List Char) : Option ℤ :=
  match pyStrip cs with
  | '+' :: r => if !r.isEmpty && r.all isDigitC then some (digitsToNat r : ℤ) else none
  | '-' :: r => if !r.isEmpty && r.all isDigitC then some (-(digitsToNat r : ℤ)) else none
  | t => if !t.isEmpty && t.all isDigitC then some (digitsToNat t : ℤ) else none

/-- Source _t2s: strip; if a colon is present, split at the first colon and
return minutes times sixty plus seconds, else parse the whole string as a
float.  A parse failure of int() or float() is the uncaught Python ValueError,
modelled as none. -/
def t2sQ (cs : List Char) : Option ℚ :=
  if (pyStrip cs).contains ':' then
    (intZ ((pyStrip cs).takeWhile fun c => !(c == ':'))).bind fun m =>
    (floatQ (((pyStrip cs).dropWhile fun c => !(c == ':')).drop 1)).map fun s =>
    (m : ℚ) * 60 + s
  else floatQ (pyStrip cs)

/-! ## Wall-clock parsing (_parse_hhmm_to_today)

Datetimes are modelled by (hour, minute) of the produced time of day; the
date part (today) has no bearing on any property here. -/

/-- The regex d{1,2}:d{2} anchored at both ends. -/
def matchesHHMM (cs : List Char) : Bool :=
  (1 ≤ (cs.takeWhile isDigitC).length && (cs.takeWhile isDigitC).length ≤ 2) &&
  (match cs.dropWhile isDigitC with
   | ':' :: r2 => r2.length = 2 && r2.all isDigitC
   | _ => false)

/-- The clamping of out-of-range fields in _parse_hhmm_to_today. -/
def clampHM (h m : Nat) : Nat × Nat :=
  (if h > 23 then 23 else h, if m > 59 then 59 else m)

/-- Source _parse_hhmm_to_today, as the (hour, minute) it installs on
today's date; the non-matching fallback is noon. -/
def parseHHMM (cs : List Char) : Nat × Nat :=
  if matchesHHMM (pyStrip cs) then
    clampHM (digitsToNat ((pyStrip cs).takeWhile fun c => !(c == ':')))
      (digitsToNat (((pyStrip cs).dropWhile fun c => !(c == ':')).drop 1))
  else (12, 0)

/-- Seconds since midnight of an (hour, minute) pair. -/
def hhmmSeconds (p : Nat × Nat) : ℚ := (p.1 * 3600 + p.2 * 60 : Nat)

/-! ## The normalizer (_normalize)

Four re.sub rewrites applied in order.  Each is embedded as a left-to-right
scan: at each position try the (deterministic) pattern; on a match emit the
replacement and resume after the matched text, else copy one character.  The
two Heat rules track the character preceding the current position in the
input for the lookbehind. -/

def hHeat : List Char := ['H', 'e', 'a', 't']

def hHeatL : List Char := ['h', 'e', 'a', 't']

def hOf : List Char := ['o', 'f']

/-- Rule 1 pattern with its replacement: a merged "Heat N of M (#E name)"
becomes "#E name", newline, "Heat N of M"; returns (replacement, rest). -/
def r1Match (cs : List Char) : Option (List Char × List Char) :=
  (litS hHeat cs).bind fun r0 =>
  (plus1 isSpaceC r0).bind fun q1 =>
  (plus1 isDigitC q1.2).bind fun q2 =>
  (plus1 isSpaceC q2.2).bind fun q3 =>
  (litS hOf q3.2).bind fun r4 =>
  (plus1 isSpaceC r4).bind fun q5 =>
  (plus1 isDigitC q5.2).bind fun q6 =>
  (plus1 isSpaceC q6.2).bind fun q7 =>
  (litS ['(', '#'] q7.2).bind fun r8 =>
  (plus1 isDigitC r8).bind fun q9 =>
  (plus1 isSpaceC q9.2).bind fun q10 =>
  (plus1 (fun c => !(c == ')')) q10.2).bind fun q11 =>
  (litS [')'] q11.2).map fun rest =>
    ('#' :: q9.1 ++ ' ' :: q11.1 ++ '\n' :: hHeat ++ ' ' :: q2.1 ++
      ' ' :: hOf ++ ' ' :: q6.1, rest)

/-- Rule 2 pattern with its replacement: a merged "Heat N (#E name)" becomes
"#E name", newline, "Heat N". -/
def r2Match (cs : List Char) : Option (List Char × List Char) :=
  (litS hHeat cs).bind fun r0 =>
  (plus1 isSpaceC r0).bind fun q1 =>
  (plus1 isDigitC q1.2).bind fun q2 =>
  (plus1 isSpaceC q2.2).bind fun q3 =>
  (litS ['(', '#'] q3.2).bind fun r4 =>
  (plus1 isDigitC r4).bind fun q5 =>
  (plus1 isSpaceC q5.2).bind fun q6 =>
  (plus1 (fun c => !(c == ')')) q6.2).bind fun q7 =>
  (litS [')'] q7.2).map fun rest =>
    ('#' :: q5.1 ++ ' ' :: q7.1 ++ '\n' :: hHeat ++ ' ' :: q2.1, rest)

/-- Rule 3 pattern: a hash, digits and trailing whitespace; returns
(matched, rest).  The replacement is a newline before the matched text. -/
def r3Match (cs : List Char) : Option (List Char × List Char) :=
  (litS ['#'] cs).bind fun r0 =>
  (plus1 isDigitC r0).bind fun q1 =>
  (plus1 isSpaceC q1.2).map fun q2 =>
    ('#' :: q1.1 ++ q2.1, q2.2)

/-- Rule 4 pattern: "Heat", whitespace, digits; returns (matched, rest). -/
def r4Match (cs : List Char) : Option (List Char × List Char) :=
  (litS hHeat cs).bind fun r0 =>
  (plus1 isSpaceC r0).bind fun q1 =>
  (plus1 isDigitC q1.2).map fun q2 =>
    (hHeat ++ q1.1 ++ q2.1, q2.2)

/-- re.sub for rule 1, fuelled (each step consumes at least one input
character, so fuel equal to the input length is always sufficient). -/
def sub1F : Nat → List Char → List Char
  | 0, cs => cs
  | _ + 1, [] => []
  | f + 1, c :: cs =>
    match r1Match (c :: cs) with
    | some p => p.1 ++ sub1F f p.2
    | none => c :: sub1F f cs

def sub1 (cs : List Char) : List Char := sub1F cs.length cs

/-- re.sub for rule 2. -/
def sub2F : Nat → List Char → List Char
  | 0, cs => cs
  | _ + 1, [] => []
  | f + 1, c :: cs =>
    match r2Match (c :: cs) with
    | some p => p.1 ++ sub2F f p.2
    | none => c :: sub2F f cs

def sub2 (cs : List Char) : List Char := sub2F cs.length cs

/-- re.sub for rule 3, tracking the character before the current position
for the negative lookbehind (none at the start of the string, where the
lookbehind succeeds).  Resuming after a match, the preceding character is
the last character of the matched text. -/
def sub3F : Nat → Option Char → List Char → List Char
  | 0, _, cs => cs
  | _ + 1, _, [] => []
  | f + 1, prev, c :: cs =>
    if prev = some '\n' then c :: sub3F f (some c) cs
    else
      match r3Match (c :: cs) with
      | some p => '\n' :: p.1 ++ sub3F f p.1.getLast? p.2
      | none => c :: sub3F f (some c) cs

def sub3 (cs : List Char) : List Char := sub3F cs.length none cs

/-- re.sub for rule 4, with the same lookbehind tracking. -/
def sub4F : Nat → Option Char → List Char → List Char
  | 0, _, cs => cs
  | _ + 1, _, [] => []
  | f + 1, prev, c :: cs =>
    if prev = some '\n' then c :: sub4F f (some c) cs
    else
      match r4Match (c :: cs) with
      | some p => '\n' :: p.1 ++ sub4F f p.1.getLast? p.2
      | none => c :: sub4F f (some c) cs

def sub4 (cs : List Char) : List Char := sub4F cs.length none cs

/-- Source _normalize: the four rewrites in order. -/
def normalizeText (cs : List Char) : List Char :=
  sub4 (sub3 (sub2 (sub1 cs)))

/-- Already-normalized (header-anchored) text: every occurrence of a hash
and every occurrence of the literal "Heat" is immediately preceded by a
newline.  On such text none of the four rewrites can fire. -/
def anchored (prev : Option Char) : List Char → Bool
  | [] => true
  | c :: cs =>
    (if c = '#' ∨ (c = 'H' ∧ cs.take 3 = ['e', 'a', 't'])
      then decide (prev = some '\n') else true) && anchored (some c) cs

/-! ## The line classifier (_parse_heat_sheet) -/

structure Record where
  event_number : Nat
  event_name : Option (List Char)
  heat : Nat
  total_heats : Option Nat
  lane : Option Nat
  seed_time : Option (List Char)
  swimmer_name : List Char
  deriving DecidableEq, Repr

/-- Scanner state: current event number and name, current heat, current
total heats, all initially unset. -/
structure ScanSt where
  curEv : Option Nat
  curName : Option (List Char)
  curHeat : Option Nat
  curTotal : Option Nat
  deriving DecidableEq, Repr

def initSt : ScanSt := ⟨none, none, none, none⟩

/-- Trailing run of closing parens removed (str.rstrip with one char). -/
def rstripParen (cs : List Char) : List Char :=
  (cs.reverse.dropWhile fun c => c == ')').reverse

/-- The anchored event-header pattern: hash, digits, whitespace, rest of
line; yields the event number and the cleaned event name. -/
def evMatch (cs : List Char) : Option (Nat × List Char) :=
  (litS ['#'] cs).bind fun r0 =>
  (plus1 isDigitC r0).bind fun q1 =>
  (plus1 isSpaceC q1.2).map fun q2 =>
    (digitsToNat q1.1, rstripParen (pyStrip q2.2))

/-- The anchored, case-insensitive "Heat N of M" pattern. -/
def heatOfMatch (cs : List Char) : Option (Nat × Nat) :=
  (litCI hHeatL cs).bind fun r0 =>
  (plus1 isSpaceC r0).bind fun q1 =>
  (plus1 isDigitC q1.2).bind fun q2 =>
  (plus1 isSpaceC q2.2).bind fun q3 =>
  (litCI hOf q3.2).bind fun r4 =>
  (plus1 isSpaceC r4).bind fun q5 =>
  (plus1 isDigitC q5.2).map fun q6 =>
    (digitsToNat q2.1, digitsToNat q6.1)

/-- The anchored, case-insensitive "Heat N" pattern with a trailing word
boundary. -/
def heatOnlyMatch (cs : List Char) : Option Nat :=
  (litCI hHeatL cs).bind fun r0 =>
  (plus1 isSpaceC r0).bind fun q1 =>
  (plus1 isDigitC q1.2).bind fun q2 =>
    match q2.2 with
    | [] => some (digitsToNat q2.1)
    | c :: _ => if isWordC c then none else some (digitsToNat q2.1)

/-- One already-stripped, nonempty line against the pattern precedence of the
loop body: event header, heat-of header, heat-only header, entry candidate.
An entry line produces a record only when an event and a heat are open and a
nonempty swimmer name is extracted. -/
def stepLine (st : ScanSt) (line : List Char) : ScanSt × Option Record :=
  if line.isEmpty then (st, none)
  else
    match evMatch line with
    | some p => (⟨some p.1, some p.2, none, none⟩, none)
    | none =>
      match heatOfMatch line with
      | some p => ({ st with curHeat := some p.1, curTotal := some p.2 }, none)
      | none =>
        match heatOnlyMatch line with
        | some h => ({ st with curHeat := some h }, none)
        | none =>
          match st.curEv, st.curHeat with
          | some e, some hh =>
            match nameFromLine line with
            | some nm =>
              if nm.isEmpty then (st, none)
              else (st, some ⟨e, st.curName, hh, st.curTotal,
                laneFromLine line, seedFromLine line, nm⟩)
            | none => (st, none)
          | _, _ => (st, none)

/-- One raw line: strip, then classify. -/
def step (st : ScanSt) (raw : List Char) : ScanSt × Option Record :=
  stepLine st (pyStrip raw)

/-- The single-pass scan over all lines, collecting records in order. -/
def scanLines : ScanSt → List (List Char) → List Record
  | _, [] => []
  | st, l :: ls =>
    match step st l with
    | (st2, none) => scanLines st2 ls
    | (st2, some r) => r :: scanLines st2 ls

/-- Source _parse_heat_sheet: normalize, split into lines, scan. -/
def parseHeatSheet (text : List Char) : List Record :=
  scanLines initSt (splitLinesPy (normalizeText text))

/-! ## Query layer (the /extract route, lines 99-100) -/

/-- Lexicographic order on (event number, heat number) pairs, as Python
sorts tuples. -/
def keyLE (a b : Nat × Nat) : Prop := a.1 < b.1 ∨ (a.1 = b.1 ∧ a.2 ≤ b.2)

/-- Strict lexicographic order on heat keys. -/
def keyLT (a b : Nat × Nat) : Prop := a.1 < b.1 ∨ (a.1 = b.1 ∧ a.2 < b.2)

instance : DecidableRel keyLE := fun a b =>
  decidable_of_iff (a.1 < b.1 ∨ (a.1 = b.1 ∧ a.2 ≤ b.2)) Iff.rfl

instance : DecidableRel keyLT := fun a b =>
  decidable_of_iff (a.1 < b.1 ∨ (a.1 = b.1 ∧ a.2 < b.2)) Iff.rfl

instance : IsTotal (Nat × Nat) keyLE := ⟨fun a b => by unfold keyLE; omega⟩

instance : IsTrans (Nat × Nat) keyLE := ⟨fun a b c => by unfold keyLE; omega⟩

/-- Sort key of a record: (event number, heat).  The source uses
"e.get(\x22heat\x22) or 0", and every assembled record carries an integer
heat, on which "or 0" is the identity (0 maps to 0). -/
def keyOf (r : Record) : Nat × Nat := (r.event_number, r.heat)

/-- Order on records by their sort key. -/
def recLE (a b : Record) : Prop := keyLE (keyOf a) (keyOf b)

instance : DecidableRel recLE := fun a b =>
  decidable_of_iff (keyLE (keyOf a) (keyOf b)) Iff.rfl

/-- Python's stable sorted() by (event number, heat), modelled by the stable
insertion sort. -/
def sortRecs (evs : List Record) : List Record := List.insertionSort recLE evs

/-- ASCII lower-casing of a string. -/
def lowerL (cs : List Char) : List Char := cs.map lowerC

/-- Python substring containment (the "in" operator). -/
def containsSubB (q : List Char) : List Char → Bool
  | [] => q.isEmpty
  | c :: rest => q.isPrefixOf (c :: rest) || containsSubB q rest

/-- The swimmer filter of the /extract route: the record's name is truthy
and contains the lower-cased query. -/
def swimFilter (q : List Char) (evs : List Record) : List Record :=
  evs.filter fun e => !e.swimmer_name.isEmpty && containsSubB (lowerL q) (lowerL e.swimmer_name)

/-- The matched list of the /extract route: parse, sort by (event, heat),
filter by swimmer query. -/
def extractMatched (text q : List Char) : List Record :=
  swimFilter q (sortRecs (parseHeatSheet text))

/-! ## Timeline estimator (timeline_estimate, lines 241-295)

The cursor datetime is modelled by rational seconds since local midnight;
timedelta addition is rational addition.  The gap parameters are the two
integer form fields. -/

/-- Python truthiness of an optional seed string. -/
def seedTruthyB : Option (List Char) → Bool
  | none => false
  | some s => !s.isEmpty

/-- first_seen: for a heat key, the seed string of the first record in list
order with that key and a truthy seed. -/
def firstSeen (evs : List Record) (k : Nat × Nat) : Option (List Char) :=
  (evs.find? fun e => keyOf e == k && seedTruthyB e.seed_time).bind fun e => e.seed_time

/-- per_heat_seconds.get(key, 60.0): the converted first seed of the key, or
the 60 second default when no record of the key carries a truthy seed.  A
seed string on which _t2s raises is none (the uncaught ValueError). -/
def durOf (evs : List Record) (k : Nat × Nat) : Option ℚ :=
  match firstSeen evs k with
  | none => some 60
  | some s => t2sQ s

/-- sorted(set of heat keys). -/
def sortedKeys (evs : List Record) : List (Nat × Nat) :=
  List.insertionSort keyLE ((evs.map keyOf).dedup)

/-- The event-gap advance before a heat whose event differs from the
previous key's event (no advance at the first key). -/
def bumpE (gapE : ℤ) (last : Option Nat) (e : Nat) (c : ℚ) : ℚ :=
  match last with
  | some l => if e ≠ l then c + gapE else c
  | none => c

/-- The cursor walk over the sorted heat keys with their assumed durations:
record the (possibly event-gap advanced) cursor for the key, then advance by
duration plus the heat gap. -/
def walkKeys (gapH gapE : ℤ) : List ((Nat × Nat) × ℚ) → Option Nat → ℚ → List ((Nat × Nat) × ℚ)
  | [], _, _ => []
  | p :: rest, last, c =>
    (p.1, bumpE gapE last p.1.1 c) ::
      walkKeys gapH gapE rest (some p.1.1) (bumpE gapE last p.1.1 c + p.2 + gapH)

/-- Sequential option-valued map: the first failure (a raised ValueError)
aborts the whole pass. -/
def optMapList {α β : Type} (f : α → Option β) : List α → Option (List β)
  | [] => some []
  | a :: as => (f a).bind fun b => (optMapList f as).map fun bs => b :: bs

/-- The estimator core on a record list: sort the records, convert the first
seed of every key (aborting the request on an unparsable seed), then walk
the sorted keys from the start time.  Returns the heat key to start time
schedule. -/
def timelineEstimate (evs : List Record) (startSec : ℚ) (gapH gapE : ℤ) :
    Option (List ((Nat × Nat) × ℚ)) :=
  (optMapList (fun k => (durOf (sortRecs evs) k).map fun d => (k, d))
      (sortedKeys (sortRecs evs))).map
    fun kds => walkKeys gapH gapE kds none startSec

/-- Lookup of a heat key in the schedule. -/
def lookupKey (k : Nat × Nat) (l : List ((Nat × Nat) × ℚ)) : Option ℚ :=
  (l.find? fun p => p.1 == k).map fun p => p.2

/-! ## Concrete inputs for the scenario claims -/

/-- Scenario D record list: two heats of event 1 and one heat of event 2,
no seed times (so every heat gets the 60 second default duration). -/
def evsD : List Record :=
  [⟨1, some ("Free".data), 1, none, none, none, ("Doe, Ann".data)⟩,
   ⟨1, some ("Free".data), 2, none, none, none, ("Fox, Bea".data)⟩,
   ⟨2, some ("Back".data), 1, none, none, none, ("Doe, Ann".data)⟩]

/-- A document with an event number 0 and a heat number 0. -/
def txtZero : List Char := "#0 A\nHeat 0\nSmith, Alex".data

/-- The single record parsed from txtZero. -/
def recZero : Record := ⟨0, some ("A".data), 0, none, none, none, "Smith, Alex".data⟩

/-- A minimal ordinary document with one entry. -/
def txtOne : List Char := "#1 A\nHeat 1\nSmith, Alex".data

/-- The single record parsed from txtOne. -/
def recOne : Record := ⟨1, some ("A".data), 1, none, none, none, "Smith, Alex".data⟩

/-- An entry line ending in a seed time and without a trailing lane
number. -/
def txtSeedLane : List Char := "#2 G\nHeat 3\nSmith, Alex 1:05.32".data

/-- The record parsed from txtSeedLane: the lane extractor picks up the
hundredths digits 32 of the seed time. -/
def recSeedLane : Record :=
  ⟨2, some ("G".data), 3, none, some 32, some ("1:05.32".data), "Smith, Alex".data⟩

/-- A scanner state with every component set, for exercising the header
transitions. -/
def stBusy : ScanSt := ⟨some 5, some ("X".data), some 2, some 7⟩

/-- A record carrying a malformed seed-time string. -/
def recBadSeed : Record := ⟨1, none, 1, none, none, some ("abc".data), "Doe, Ann".data⟩

/-! ## Helper lemmas about the scanning combinators -/

theorem litS_append {l cs r : List Char} (h : litS l cs = some r) : cs = l ++ r := by
  unfold litS at h
  split at h
  · next heq =>
    cases h
    conv_lhs => rw [← List.take_append_drop l.length cs]
    rw [heq]
  · exact absurd h (by simp)

theorem litS_length {l cs r : List Char} (h : litS l cs = some r) :
    r.length + l.length = cs.length := by
  have := litS_append h
  subst this
  simp [Nat.add_comm]

theorem litCI_parts {l cs r : List Char} (h : litCI l cs = some r) :
    cs = cs.take l.length ++ r ∧ (cs.take l.length).map lowerC = l := by
  unfold litCI at h
  split at h
  · next heq =>
    cases h
    exact ⟨(List.take_append_drop l.length cs).symm, heq⟩
  · exact absurd h (by simp)

theorem plus1_parts {p : Char → Bool} {cs t r : List Char}
    (h : plus1 p cs = some (t, r)) :
    cs = t ++ r ∧ t ≠ [] ∧ ∀ c ∈ t, p c = true := by
  unfold plus1 at h
  split at h
  · exact absurd h (by simp)
  · next hne =>
    cases h
    refine ⟨(List.takeWhile_append_dropWhile p cs).symm, by simpa using hne, ?_⟩
    intro c hc
    exact List.mem_takeWhile_imp hc

theorem plus1_length {p : Char → Bool} {cs t r : List Char}
    (h : plus1 p cs = some (t, r)) : r.length < cs.length := by
  obtain ⟨hcs, hne, -⟩ := plus1_parts h
  subst hcs
  cases t with
  | nil => exact absurd rfl hne
  | cons a l => simp [Nat.lt_succ_of_le, Nat.le_add_left]

/-- Splitting a list whose prefix satisfies p everywhere, at a first
character that does not: takeWhile returns exactly the prefix. -/
theorem takeWhile_append_of_boundary {p : Char → Bool} {t : List Char}
    (ht : ∀ c ∈ t, p c = true) {x : Char} (hx : p x = false) (r : List Char) :
    (t ++ x :: r).takeWhile p = t ∧ (t ++ x :: r).dropWhile p = x :: r := by
  induction t with
  | nil => simp [List.takeWhile, List.dropWhile, hx]
  | cons a l ih =>
    have ha : p a = true := ht a (by simp)
    have ih' := ih (fun c hc => ht c (by simp [hc]))
    simp [List.takeWhile, List.dropWhile, ha, ih'.1, ih'.2]

theorem takeWhile_all_of {p : Char → Bool} {t : List Char}
    (ht : ∀ c ∈ t, p c = true) : t.takeWhile p = t ∧ t.dropWhile p = [] := by
  induction t with
  | nil => simp
  | cons a l ih =>
    have ha : p a = true := ht a (by simp)
    have ih' := ih (fun c hc => ht c (by simp [hc]))
    simp [List.takeWhile, List.dropWhile, ha, ih'.1, ih'.2]

theorem containsSubB_iff_infix {q s : List Char} :
    containsSubB q s = true ↔ q <:+: s := by
  induction s with
  | nil =>
    simp only [containsSubB, List.isEmpty_iff]
    constructor
    · intro h; simp [h]
    · intro h
      have := List.eq_nil_of_infix_nil h
      simp [this]
  | cons c rest ih =>
    simp only [containsSubB, Bool.or_eq_true, List.isPrefixOf_iff_prefix, ih,
      List.infix_cons_iff]

/-! ## Claim C1 -/

/-- C1 counterexample: with two heats of event 1 and one heat of event 2,
all durations the 60 second default, gaps 20 and 60 seconds, start "08:00"
(28800 seconds), the estimator assigns heat (2,1) the start 29020 seconds =
08:03:40, not 08:03:20 (= 29000 seconds) as the claim states: after heat
(1,2) the cursor advances by its 60 second duration plus the 20 second heat
gap and then by the 60 second event gap. -/
theorem c1_counterexample :
    (timelineEstimate evsD (hhmmSeconds (parseHHMM ("08:00".data))) 20 60).bind
        (lookupKey (2, 1)) = some 29020 ∧
      (29020 : ℚ) ≠ 8 * 3600 + 3 * 60 + 20 := by
  constructor
  · with_unfolding_all rfl
  · norm_num

/-- C1 amended: the estimator on Scenario D assigns heat (1,1) the start
08:00:00 (28800 s), heat (1,2) the start 08:01:20 (28880 s) and heat (2,1)
the start 08:03:40 (29020 s). -/
theorem c1_amended :
    timelineEstimate evsD (hhmmSeconds (parseHHMM ("08:00".data))) 20 60 =
      some [((1, 1), 28800), ((1, 2), 28880), ((2, 1), 29020)] := by
  with_unfolding_all rfl

/-! ## Claim C9 -/

/-- C9: seed-time conversion maps "1:05.32" to 65.32 seconds (1 times 60
plus 05.32) and the bare "47.64" to 47.64 seconds. -/
theorem c9_t2s_values :
    t2sQ ("1:05.32".data) = some (6532 / 100 : ℚ) ∧
      t2sQ ("47.64".data) = some (4764 / 100 : ℚ) := by
  constructor
  · with_unfolding_all rfl
  · with_unfolding_all rfl

/-! ## Inversion lemmas for the line classifier -/

/-- A record emitted by one classifier step carries the state's current
total-heats value, a nonempty swimmer name, and leaves the state
unchanged. -/
theorem stepLine_record {st : ScanSt} {line : List Char} {st2 : ScanSt} {r : Record}
    (h : stepLine st line = (st2, some r)) :
    st2 = st ∧ r.total_heats = st.curTotal ∧ r.event_name = st.curName ∧
      st.curEv = some r.event_number ∧ st.curHeat = some r.heat ∧
      r.swimmer_name ≠ [] := by
  unfold stepLine at h
  repeat' split at h
  all_goals simp_all
  all_goals
    obtain ⟨h1, h2⟩ := h
    subst h1
    subst h2
    simp_all [List.isEmpty_iff]

theorem evMatch_ne_nil {p : Nat × List Char} (h : evMatch [] = some p) : False := by
  simp [evMatch, litS] at h

theorem heatOnlyMatch_ne_nil {h0 : Nat} (h : heatOnlyMatch [] = some h0) : False := by
  simp [heatOnlyMatch, litCI, hHeatL] at h

theorem heatOfMatch_ne_nil {p : Nat × Nat} (h : heatOfMatch [] = some p) : False := by
  simp [heatOfMatch, litCI, hHeatL] at h

/-- An event-header line installs the event and resets both the heat and the
total-heats to unset. -/
theorem step_ev {st : ScanSt} {raw : List Char} {p : Nat × List Char}
    (h : evMatch (pyStrip raw) = some p) :
    (step st raw).1 = ⟨some p.1, some p.2, none, none⟩ ∧ (step st raw).2 = none := by
  have hne : (pyStrip raw).isEmpty = false := by
    cases hc : pyStrip raw with
    | nil => rw [hc] at h; exact absurd h (fun hh => evMatch_ne_nil hh)
    | cons a l => simp
  unfold step stepLine
  rw [hne, h]
  simp

/-- A heat-of header line sets both the heat and the total-heats. -/
theorem step_heatOf {st : ScanSt} {raw : List Char} {p : Nat × Nat}
    (he : evMatch (pyStrip raw) = none) (h : heatOfMatch (pyStrip raw) = some p) :
    (step st raw).1 = { st with curHeat := some p.1, curTotal := some p.2 } ∧
      (step st raw).2 = none := by
  have hne : (pyStrip raw).isEmpty = false := by
    cases hc : pyStrip raw with
    | nil => rw [hc] at h; exact absurd h (fun hh => heatOfMatch_ne_nil hh)
    | cons a l => simp
  unfold step stepLine
  rw [hne, he, h]
  simp

/-- A heat-only header line sets the heat and leaves the total-heats
untouched. -/
theorem step_heatOnly {st : ScanSt} {raw : List Char} {h0 : Nat}
    (he : evMatch (pyStrip raw) = none) (hf : heatOfMatch (pyStrip raw) = none)
    (h : heatOnlyMatch (pyStrip raw) = some h0) :
    (step st raw).1 = { st with curHeat := some h0 } ∧ (step st raw).2 = none := by
  have hne : (pyStrip raw).isEmpty = false := by
    cases hc : pyStrip raw with
    | nil => rw [hc] at h; exact absurd h (fun hh => heatOnlyMatch_ne_nil hh)
    | cons a l => simp
  unfold step stepLine
  rw [hne, he, hf, h]
  simp

/-- A line that is neither an event header nor a heat-of header leaves the
current total-heats unchanged. -/
theorem step_total_stable {st : ScanSt} {raw : List Char}
    (he : evMatch (pyStrip raw) = none) (hf : heatOfMatch (pyStrip raw) = none) :
    (step st raw).1.curTotal = st.curTotal := by
  unfold step stepLine
  split
  · rfl
  · rw [he, hf]
    cases hho : heatOnlyMatch (pyStrip raw) with
    | some h0 => rfl
    | none =>
      repeat' split
      all_goals first | rfl | simp_all

/-- A record emitted by a step on such a line carries the state's current
total-heats. -/
theorem step_record_total {st : ScanSt} {raw : List Char} {st2 : ScanSt} {r : Record}
    (hs : step st raw = (st2, some r)) : r.total_heats = st.curTotal :=
  (stepLine_record hs).2.1

/-- Every record produced by the scan has a nonempty swimmer name. -/
theorem scanLines_name_ne :
    ∀ (ls : List (List Char)) (st : ScanSt), ∀ r ∈ scanLines st ls, r.swimmer_name ≠ [] := by
  intro ls
  induction ls with
  | nil => intro st r h; simp [scanLines] at h
  | cons l ls ih =>
    intro st r h
    unfold scanLines at h
    cases hs : step st l with
    | mk st2 o =>
      rw [hs] at h
      cases o with
      | none => exact ih st2 r h
      | some r0 =>
        rcases List.mem_cons.1 h with h1 | h1
        · subst h1; exact (stepLine_record hs).2.2.2.2.2
        · exact ih st2 r h1

/-- Over lines none of which is an event header or a heat-of header, every
record produced by the scan carries the total-heats the scan started with. -/
theorem scanLines_total_stable :
    ∀ (ls : List (List Char)),
      (∀ l ∈ ls, evMatch (pyStrip l) = none ∧ heatOfMatch (pyStrip l) = none) →
      ∀ (st : ScanSt), ∀ r ∈ scanLines st ls, r.total_heats = st.curTotal := by
  intro ls
  induction ls with
  | nil => intro _ st r h; simp [scanLines] at h
  | cons l ls ih =>
    intro hok st r h
    obtain ⟨hl, hls⟩ := List.forall_mem_cons.1 hok
    unfold scanLines at h
    cases hs : step st l with
    | mk st2 o =>
      rw [hs] at h
      have hstable : st2.curTotal = st.curTotal := by
        have := @step_total_stable st l hl.1 hl.2
        rw [hs] at this
        exact this
      cases o with
      | none => rw [ih hls st2 r h]; exact hstable
      | some r0 =>
        rcases List.mem_cons.1 h with h1 | h1
        · subst h1; exact step_record_total hs
        · rw [ih hls st2 r h1]; exact hstable

/-! ## Claim C2 -/

/-- C2 counterexample: the document "#0 A, Heat 0, Smith, Alex" parses to a
record whose event number and heat number are 0, not positive, because the
header patterns accept any digit run including 0. -/
theorem c2_counterexample :
    parseHeatSheet txtZero = [recZero] ∧ recZero.event_number = 0 ∧ recZero.heat = 0 := by
  refine ⟨by decide, rfl, rfl⟩

/-- C2 amended: every record in the output of the parse has a nonempty
swimmer name; the event and heat numbers are natural numbers read from digit
runs and can be 0 (headers "#0 ..." and "Heat 0" are accepted), so they need
not be positive. -/
theorem c2_amended (text : List Char) :
    ∀ r ∈ parseHeatSheet text, r.swimmer_name ≠ [] := by
  intro r h
  exact scanLines_name_ne _ _ r h

/-- C2 witness. -/
theorem c2_witness : recOne ∈ parseHeatSheet txtOne ∧ recOne.swimmer_name ≠ [] :=
  ⟨by decide, c2_amended txtOne recOne (by decide)⟩

/-! ## Claim C3 -/

/-- C3: (1) an event-header line resets the current heat and current
total-heats to unset; (2) a heat-only header sets the current heat and
preserves the current total-heats; (3) hence after an event header, as long
as no further event header or heat-of header occurs, every produced record
has unset total-heats (nothing leaks from the previous event); and (4) after
a heat-of header stating total M, as long as no further event header or
heat-of header occurs (later heat-only headers of the same event included),
every produced record carries total-heats M. -/
theorem c3_heat_reset (st : ScanSt) (raw : List Char) (post : List (List Char)) :
    (∀ p : Nat × List Char, evMatch (pyStrip raw) = some p →
      (step st raw).1.curHeat = none ∧ (step st raw).1.curTotal = none) ∧
    (∀ h0 : Nat, evMatch (pyStrip raw) = none → heatOfMatch (pyStrip raw) = none →
      heatOnlyMatch (pyStrip raw) = some h0 →
      (step st raw).1.curHeat = some h0 ∧ (step st raw).1.curTotal = st.curTotal) ∧
    ((∀ l ∈ post, evMatch (pyStrip l) = none ∧ heatOfMatch (pyStrip l) = none) →
      ∀ p : Nat × List Char, evMatch (pyStrip raw) = some p →
      ∀ r ∈ scanLines (step st raw).1 post, r.total_heats = none) ∧
    ((∀ l ∈ post, evMatch (pyStrip l) = none ∧ heatOfMatch (pyStrip l) = none) →
      ∀ p : Nat × Nat, evMatch (pyStrip raw) = none → heatOfMatch (pyStrip raw) = some p →
      ∀ r ∈ scanLines (step st raw).1 post, r.total_heats = some p.2) := by
  refine ⟨?_, ?_, ?_, ?_⟩
  · intro p hp
    rw [(step_ev hp).1]
    exact ⟨rfl, rfl⟩
  · intro h0 he hf hh
    rw [(step_heatOnly he hf hh).1]
    exact ⟨rfl, rfl⟩
  · intro hpost p hp r hr
    have := scanLines_total_stable post hpost _ r hr
    rw [this, (step_ev hp).1]
  · intro hpost p he hp r hr
    have := scanLines_total_stable post hpost _ r hr
    rw [this, (step_heatOf he hp).1]

/-- C3 witness: concrete instances of all four parts, on the fully set
state stBusy. -/
theorem c3_witness :
    ((step stBusy ("#3 Foo".data)).1.curHeat = none ∧
      (step stBusy ("#3 Foo".data)).1.curTotal = none) ∧
    ((step stBusy ("Heat 4".data)).1.curHeat = some 4 ∧
      (step stBusy ("Heat 4".data)).1.curTotal = some 7) ∧
    (∀ r ∈ scanLines (step stBusy ("#3 Foo".data)).1
        ["Heat 1".data, "Smith, Alex".data], r.total_heats = none) ∧
    (∀ r ∈ scanLines (step stBusy ("Heat 1 of 9".data)).1
        ["Heat 2".data, "Smith, Alex".data], r.total_heats = some 9) := by
  refine ⟨?_, ?_, ?_, ?_⟩
  · exact (c3_heat_reset stBusy ("#3 Foo".data) []).1 (3, "Foo".data) (by decide)
  · have := (c3_heat_reset stBusy ("Heat 4".data) []).2.1 4 (by decide) (by decide) (by decide)
    simpa [stBusy] using this
  · exact (c3_heat_reset stBusy ("#3 Foo".data) _).2.2.1 (by decide) (3, "Foo".data) (by decide)
  · exact (c3_heat_reset stBusy ("Heat 1 of 9".data) _).2.2.2 (by decide) (1, 9) (by decide) (by decide)

/-! ## Claim C10 -/

/-- The lane attempt succeeds on a nonempty all-digit tail. -/
theorem tryLane_digits {ds : List Char} (hne : ds ≠ [])
    (hd : ∀ c ∈ ds, isDigitC c = true) : tryLane ds = some (digitsToNat ds) := by
  obtain ⟨ht, hdrop⟩ := takeWhile_all_of hd
  unfold tryLane plus1
  rw [ht, hdrop]
  simp [List.isEmpty_iff, hne]

/-- The lane attempt fails at any position from which a dot is still
ahead. -/
theorem tryLane_of_dot {xs : List Char} (hdot : ('.' : Char) ∈ xs) :
    tryLane xs = none := by
  unfold tryLane
  cases hp : plus1 isDigitC xs with
  | none => rfl
  | some q =>
    obtain ⟨hxs, hne, hdig⟩ := plus1_parts hp
    have hq2 : ('.' : Char) ∈ q.2 := by
      rcases List.mem_append.1 (hxs ▸ hdot) with h1 | h1
      · exact absurd (hdig _ h1) (by decide)
      · exact h1
    have hall : q.2.all isSpaceC = false := by
      cases hall : q.2.all isSpaceC with
      | false => rfl
      | true => exact absurd (List.all_eq_true.1 hall _ hq2) (by decide)
    simp [hp, hall]
    exact ⟨'.', hq2, by decide⟩

/-- The lane scan over a line ending in a dot followed by a digit run
returns that digit run's value. -/
theorem laneScan_dot {ds : List Char} (hne : ds ≠ [])
    (hd : ∀ c ∈ ds, isDigitC c = true) :
    ∀ t : List Char, laneScan (t ++ '.' :: ds) = some (digitsToNat ds) := by
  intro t
  induction t with
  | nil =>
    show laneScan ('.' :: ds) = _
    unfold laneScan
    rw [tryLane_of_dot (by simp)]
    cases ds with
    | nil => exact absurd rfl hne
    | cons c ds2 =>
      unfold laneScan
      rw [tryLane_digits hne hd]
  | cons a t2 ih =>
    show laneScan (a :: (t2 ++ '.' :: ds)) = _
    unfold laneScan
    rw [tryLane_of_dot (by simp)]
    exact ih

/-- C10: an entry line that ends with a seed time and no separate trailing
lane number gives the hundredths digits of the seed as the lane: generally,
on any line of the form t, dot, digit-run the lane extractor returns that
final digit run; concretely, the document with entry "Smith, Alex 1:05.32"
parses to one record with lane 32 and seed time "1:05.32". -/
theorem c10_lane_from_seed :
    (∀ t ds : List Char, ds ≠ [] → (∀ c ∈ ds, isDigitC c = true) →
      laneFromLine (t ++ '.' :: ds) = some (digitsToNat ds)) ∧
    parseHeatSheet txtSeedLane = [recSeedLane] := by
  constructor
  · intro t ds hne hd
    exact laneScan_dot hne hd t
  · decide

/-- C10 witness. -/
theorem c10_witness :
    laneFromLine (("Smith, Alex 1:05".data) ++ '.' :: ("32".data)) =
      some (digitsToNat ("32".data)) :=
  c10_lane_from_seed.1 ("Smith, Alex 1:05".data) ("32".data) (by decide) (by decide)

/-! ## Claim C7 -/

theorem digitC_beq_colon_false {c : Char} (h : isDigitC c = true) :
    (c == ':') = false := by
  cases hb : c == ':' with
  | false => rfl
  | true =>
    have : c = ':' := eq_of_beq hb
    subst this
    exact absurd h (by decide)

theorem clampHM_min (h m : Nat) : clampHM h m = (min h 23, min m 59) := by
  unfold clampHM
  simp only [Prod.mk.injEq]
  constructor
  · split <;> omega
  · split <;> omega

/-- C7: the wall-clock parser always returns a time: on a stripped input of
shape one-or-two digits, colon, exactly two digits, it returns the two
values clamped to at most 23 and 59; on any input not of that shape it
returns noon (12:00). -/
theorem c7_wallclock (s : List Char) :
    (∀ ds1 ds2 : List Char, pyStrip s = ds1 ++ ':' :: ds2 →
      (∀ c ∈ ds1, isDigitC c = true) → 1 ≤ ds1.length → ds1.length ≤ 2 →
      (∀ c ∈ ds2, isDigitC c = true) → ds2.length = 2 →
      parseHHMM s = (min (digitsToNat ds1) 23, min (digitsToNat ds2) 59)) ∧
    (matchesHHMM (pyStrip s) = false → parseHHMM s = (12, 0)) := by
  constructor
  · intro ds1 ds2 hsplit h1 hl1 hl2 h2 hl3
    have hdig := takeWhile_append_of_boundary h1 (show isDigitC ':' = false by decide) ds2
    have hm : matchesHHMM (pyStrip s) = true := by
      rw [hsplit]
      unfold matchesHHMM
      rw [hdig.1, hdig.2]
      simp [hl1, hl2, hl3, List.all_eq_true]
      exact h2
    have hcolon := takeWhile_append_of_boundary
      (p := fun c => !(c == ':')) (t := ds1) (x := ':')
      (fun c hc => by
        show (!(c == ':')) = true
        rw [digitC_beq_colon_false (h1 c hc)]
        rfl)
      (by decide) ds2
    unfold parseHHMM
    rw [hsplit] at hm ⊢
    rw [hm]
    simp only [if_true]
    rw [hcolon.1, hcolon.2]
    simp only [List.drop_succ_cons, List.drop_zero]
    exact clampHM_min _ _
  · intro h
    unfold parseHHMM
    rw [h]
    simp

/-- C7 witness: out-of-range hour and minute are clamped; a non-matching
string falls back to noon. -/
theorem c7_witness : parseHHMM ("99:99".data) = (23, 59) ∧ parseHHMM ("noon".data) = (12, 0) := by
  constructor
  · have h := (c7_wallclock ("99:99".data)).1 ("99".data) ("99".data)
      (by decide) (by decide) (by decide) (by decide) (by decide) (by decide)
    rw [h]
    decide
  · exact (c7_wallclock ("noon".data)).2 (by decide)

/-! ## Claim C8 -/

/-- C8: the swimmer filter of the extract route returns a sublist of the
(event, heat)-sorted parse output — so matches appear in that re-sorted
order — every returned record is a record of the parse output, and every
returned record's swimmer name is nonempty and contains the query
case-insensitively. -/
theorem c8_filter_by_swimmer (text q : List Char) :
    List.Sublist (extractMatched text q) (sortRecs (parseHeatSheet text)) ∧
    (∀ r ∈ extractMatched text q, r ∈ parseHeatSheet text) ∧
    (∀ r ∈ extractMatched text q,
      r.swimmer_name ≠ [] ∧ lowerL q <:+: lowerL r.swimmer_name) := by
  refine ⟨?_, ?_, ?_⟩
  · unfold extractMatched swimFilter
    exact List.filter_sublist _
  · intro r hr
    unfold extractMatched swimFilter at hr
    have h1 : r ∈ sortRecs (parseHeatSheet text) := List.mem_of_mem_filter hr
    exact ((List.perm_insertionSort recLE (parseHeatSheet text)).mem_iff).1 h1
  · intro r hr
    unfold extractMatched swimFilter at hr
    have h2 := List.of_mem_filter hr
    rw [Bool.and_eq_true] at h2
    refine ⟨?_, containsSubB_iff_infix.1 h2.2⟩
    have h3 := h2.1
    simpa [List.isEmpty_iff] using h3

/-- C8 witness. -/
theorem c8_witness :
    recOne ∈ parseHeatSheet txtOne ∧ lowerL ("smi".data) <:+: lowerL recOne.swimmer_name := by
  have h := c8_filter_by_swimmer txtOne ("smi".data)
  have hm : recOne ∈ extractMatched txtOne ("smi".data) := by decide
  exact ⟨h.2.1 recOne hm, (h.2.2 recOne hm).2⟩

/-! ## Claim C4: reconstruction lemmas for the normalizer rules -/

/-- A rule 1 match contains a paren-hash pair. -/
theorem r1Match_paren {cs : List Char} {p : List Char × List Char}
    (h : r1Match cs = some p) : ∃ a b, cs = a ++ '(' :: '#' :: b := by
  unfold r1Match at h
  simp only [Option.bind_eq_some, Option.map_eq_some'] at h
  obtain ⟨r0, h0, q1, h1, q2, h2, q3, h3, r4, h4, q5, h5, q6, h6, q7, h7,
    r8, h8, q9, h9, q10, h10, q11, h11, rr, h12, hp⟩ := h
  refine ⟨hHeat ++ q1.1 ++ q2.1 ++ q3.1 ++ hOf ++ q5.1 ++ q6.1 ++ q7.1, r8, ?_⟩
  rw [litS_append h0, (plus1_parts h1).1, (plus1_parts h2).1, (plus1_parts h3).1,
    litS_append h4, (plus1_parts h5).1, (plus1_parts h6).1, (plus1_parts h7).1,
    litS_append h8]
  simp [List.append_assoc]

/-- A rule 2 match contains a paren-hash pair. -/
theorem r2Match_paren {cs : List Char} {p : List Char × List Char}
    (h : r2Match cs = some p) : ∃ a b, cs = a ++ '(' :: '#' :: b := by
  unfold r2Match at h
  simp only [Option.bind_eq_some, Option.map_eq_some'] at h
  obtain ⟨r0, h0, q1, h1, q2, h2, q3, h3, r4, h4, q5, h5, q6, h6, q7, h7,
    rr, h8, hp⟩ := h
  refine ⟨hHeat ++ q1.1 ++ q2.1 ++ q3.1, r4, ?_⟩
  rw [litS_append h0, (plus1_parts h1).1, (plus1_parts h2).1, (plus1_parts h3).1,
    litS_append h4]
  simp [List.append_assoc]

/-- A rule 3 match starts with a hash. -/
theorem r3Match_hash {cs : List Char} {p : List Char × List Char}
    (h : r3Match cs = some p) : ∃ b, cs = '#' :: b := by
  unfold r3Match at h
  simp only [Option.bind_eq_some, Option.map_eq_some'] at h
  obtain ⟨r0, h0, -⟩ := h
  exact ⟨r0, litS_append h0⟩

/-- A rule 4 match starts with the literal "Heat". -/
theorem r4Match_heat {cs : List Char} {p : List Char × List Char}
    (h : r4Match cs = some p) : ∃ b, cs = 'H' :: 'e' :: 'a' :: 't' :: b := by
  unfold r4Match at h
  simp only [Option.bind_eq_some, Option.map_eq_some'] at h
  obtain ⟨r0, h0, -⟩ := h
  exact ⟨r0, litS_append h0⟩

theorem anchored_tail {p : Option Char} {c : Char} {cs : List Char}
    (h : anchored p (c :: cs) = true) : anchored (some c) cs = true := by
  unfold anchored at h
  rw [Bool.and_eq_true] at h
  exact h.2

theorem anchored_head_hash {p : Option Char} {cs : List Char}
    (h : anchored p ('#' :: cs) = true) : p = some '\n' := by
  unfold anchored at h
  rw [Bool.and_eq_true] at h
  obtain ⟨h1, -⟩ := h
  rw [if_pos (Or.inl rfl)] at h1
  exact of_decide_eq_true h1

theorem anchored_head_heat {p : Option Char} {cs : List Char}
    (h : anchored p ('H' :: cs) = true) (ht : cs.take 3 = ['e', 'a', 't']) :
    p = some '\n' := by
  unfold anchored at h
  rw [Bool.and_eq_true] at h
  obtain ⟨h1, -⟩ := h
  rw [if_pos (Or.inr ⟨rfl, ht⟩)] at h1
  exact of_decide_eq_true h1

/-- Anchored text contains no paren-hash pair. -/
theorem anchored_no_parenHash :
    ∀ (a : List Char) (p : Option Char) (b : List Char),
      anchored p (a ++ '(' :: '#' :: b) = true → False := by
  intro a
  induction a with
  | nil =>
    intro p b h
    have h2 := anchored_head_hash (anchored_tail h)
    simp at h2
  | cons x a2 ih =>
    intro p b h
    exact ih (some x) b (anchored_tail h)

theorem sub1F_id (f : Nat) :
    ∀ cs : List Char, (∀ a b : List Char, cs ≠ a ++ '(' :: '#' :: b) →
      sub1F f cs = cs := by
  induction f with
  | zero => intro cs h; rfl
  | succ f ih =>
    intro cs h
    cases cs with
    | nil => rfl
    | cons c cs2 =>
      unfold sub1F
      cases hm : r1Match (c :: cs2) with
      | some p =>
        obtain ⟨a, b, hab⟩ := r1Match_paren hm
        exact absurd hab (h a b)
      | none =>
        rw [ih cs2 (fun a b hab => h (c :: a) b (by rw [hab]; rfl))]

theorem sub2F_id (f : Nat) :
    ∀ cs : List Char, (∀ a b : List Char, cs ≠ a ++ '(' :: '#' :: b) →
      sub2F f cs = cs := by
  induction f with
  | zero => intro cs h; rfl
  | succ f ih =>
    intro cs h
    cases cs with
    | nil => rfl
    | cons c cs2 =>
      unfold sub2F
      cases hm : r2Match (c :: cs2) with
      | some p =>
        obtain ⟨a, b, hab⟩ := r2Match_paren hm
        exact absurd hab (h a b)
      | none =>
        rw [ih cs2 (fun a b hab => h (c :: a) b (by rw [hab]; rfl))]

theorem sub3F_id (f : Nat) :
    ∀ (p : Option Char) (cs : List Char), anchored p cs = true →
      sub3F f p cs = cs := by
  induction f with
  | zero => intro p cs h; rfl
  | succ f ih =>
    intro p cs h
    cases cs with
    | nil => rfl
    | cons c cs2 =>
      unfold sub3F
      by_cases hp : p = some '\n'
      · rw [if_pos hp, ih (some c) cs2 (anchored_tail h)]
      · rw [if_neg hp]
        cases hm : r3Match (c :: cs2) with
        | some q =>
          obtain ⟨b, hb⟩ := r3Match_hash hm
          injection hb with hb1 hb2
          subst hb1
          exact absurd (anchored_head_hash h) hp
        | none => rw [ih (some c) cs2 (anchored_tail h)]

theorem sub4F_id (f : Nat) :
    ∀ (p : Option Char) (cs : List Char), anchored p cs = true →
      sub4F f p cs = cs := by
  induction f with
  | zero => intro p cs h; rfl
  | succ f ih =>
    intro p cs h
    cases cs with
    | nil => rfl
    | cons c cs2 =>
      unfold sub4F
      by_cases hp : p = some '\n'
      · rw [if_pos hp, ih (some c) cs2 (anchored_tail h)]
      · rw [if_neg hp]
        cases hm : r4Match (c :: cs2) with
        | some q =>
          obtain ⟨b, hb⟩ := r4Match_heat hm
          injection hb with hb1 hb2
          subst hb1
          subst hb2
          exact absurd (anchored_head_heat h (by rfl)) hp
        | none => rw [ih (some c) cs2 (anchored_tail h)]

/-- On anchored text the normalizer is the identity. -/
theorem normalizeText_id {cs : List Char} (h : anchored none cs = true) :
    normalizeText cs = cs := by
  have hnph : ∀ a b : List Char, cs ≠ a ++ '(' :: '#' :: b :=
    fun a b hab => anchored_no_parenHash a none b (hab ▸ h)
  unfold normalizeText sub1 sub2 sub3 sub4
  rw [sub1F_id _ cs hnph, sub2F_id _ cs hnph, sub3F_id _ none cs h,
    sub4F_id _ none cs h]

/-- C4 counterexample: the normalizer is not idempotent.  On "#1#2 " the
third rewrite inserts a newline before "#2 ", and that inserted newline
turns the leading "#1" into a fresh match (hash, digits, whitespace) of the
same pattern on the second pass, which prepends another newline. -/
theorem c4_counterexample :
    normalizeText (normalizeText ("#1#2 ".data)) ≠ normalizeText ("#1#2 ".data) := by
  decide

/-- C4 amended: the normalizer is idempotent on anchored (already
normalized) text, in which every hash and every "Heat" is immediately
preceded by a newline; on such text it is in fact the identity.  On
arbitrary text idempotence fails (see the counterexample). -/
theorem c4_normalize_idem {cs : List Char} (h : anchored none cs = true) :
    normalizeText (normalizeText cs) = normalizeText cs := by
  rw [normalizeText_id h, normalizeText_id h]

/-- C4 witness. -/
theorem c4_witness :
    anchored none ("\n#1 x\nHeat 2".data) = true ∧
      normalizeText (normalizeText ("\n#1 x\nHeat 2".data)) =
        normalizeText ("\n#1 x\nHeat 2".data) :=
  ⟨by decide, c4_normalize_idem (by decide)⟩

/-! ## Lemmas about the timeline estimator -/

/-- Inversion of first_seen: the seed belongs to a record of the list and is
nonempty. -/
theorem firstSeen_some {evs : List Record} {k : Nat × Nat} {s : List Char}
    (h : firstSeen evs k = some s) :
    ∃ r ∈ evs, r.seed_time = some s ∧ s ≠ [] := by
  unfold firstSeen at h
  simp only [Option.bind_eq_some] at h
  obtain ⟨e, hfind, hseed⟩ := h
  have hmem := List.mem_of_find?_eq_some hfind
  have hp := List.find?_some hfind
  rw [Bool.and_eq_true] at hp
  refine ⟨e, hmem, hseed, ?_⟩
  have h2 := hp.2
  rw [hseed] at h2
  unfold seedTruthyB at h2
  simpa [List.isEmpty_iff] using h2

/-- Every key's assumed duration exists and inherits any property P enjoyed
both by 60 and by the parsed value of every nonempty seed of the list. -/
theorem durOf_good {evs : List Record} {P : ℚ → Prop} (h60 : P 60)
    (hseed : ∀ r ∈ evs, ∀ s, r.seed_time = some s → s ≠ [] →
      ∃ q, t2sQ s = some q ∧ P q) (k : Nat × Nat) :
    ∃ d, durOf evs k = some d ∧ P d := by
  unfold durOf
  cases hf : firstSeen evs k with
  | none => exact ⟨60, rfl, h60⟩
  | some s =>
    obtain ⟨r, hr, hs, hne⟩ := firstSeen_some hf
    obtain ⟨q, hq, hPq⟩ := hseed r hr s hs hne
    exact ⟨q, hq, hPq⟩

/-- When every key has a duration (with property P), the duration pass of
the estimator succeeds and tags each key with its duration. -/
theorem optMapList_durOf {evs : List Record} {P : ℚ → Prop} :
    ∀ ks : List (Nat × Nat),
      (∀ k ∈ ks, ∃ d, durOf evs k = some d ∧ P d) →
      ∃ kds : List ((Nat × Nat) × ℚ),
        optMapList (fun k => (durOf evs k).map fun d => (k, d)) ks = some kds ∧
        kds.map Prod.fst = ks ∧ ∀ p ∈ kds, durOf evs p.1 = some p.2 ∧ P p.2 := by
  intro ks
  induction ks with
  | nil => intro _; exact ⟨[], rfl, rfl, by simp⟩
  | cons k ks ih =>
    intro h
    obtain ⟨d, hd, hPd⟩ := h k (List.mem_cons_self k ks)
    obtain ⟨kds, hkds, hmap, hall⟩ := ih (fun k2 hk2 => h k2 (List.mem_cons_of_mem _ hk2))
    refine ⟨(k, d) :: kds, ?_, by simp [hmap], ?_⟩
    · simp [optMapList, hd, hkds]
    · intro p hp
      rcases List.mem_cons.1 hp with h1 | h1
      · subst h1; exact ⟨hd, hPd⟩
      · exact hall p h1

theorem keyLT_trans {a b c : Nat × Nat} (h1 : keyLT a b) (h2 : keyLT b c) :
    keyLT a c := by
  unfold keyLT at *
  omega

theorem keyLT_irrefl (a : Nat × Nat) : ¬ keyLT a a := by
  unfold keyLT
  omega

theorem keyLE_ne_lt {a b : Nat × Nat} (h : keyLE a b) (hne : a ≠ b) : keyLT a b := by
  unfold keyLE at h
  unfold keyLT
  rcases h with h | ⟨h1, h2⟩
  · exact Or.inl h
  · rcases lt_or_eq_of_le h2 with h3 | h3
    · exact Or.inr ⟨h1, h3⟩
    · exact absurd (Prod.ext h1 h3) hne

/-- The distinct sorted key list is strictly increasing. -/
theorem sortedKeys_pairwise (evs : List Record) : (sortedKeys evs).Pairwise keyLT := by
  have hs : List.Pairwise keyLE (sortedKeys evs) :=
    List.sorted_insertionSort keyLE ((evs.map keyOf).dedup)
  have hn : (sortedKeys evs).Nodup :=
    ((List.perm_insertionSort keyLE ((evs.map keyOf).dedup)).nodup_iff).2
      (List.nodup_dedup _)
  exact (hs.and hn).imp (fun h => keyLE_ne_lt h.1 h.2)

theorem bumpE_ge {gapE : ℤ} (hE : 0 ≤ gapE) (last : Option Nat) (e : Nat) (c : ℚ) :
    c ≤ bumpE gapE last e c := by
  have hc : (0 : ℚ) ≤ (gapE : ℚ) := by exact_mod_cast hE
  cases last with
  | none => exact le_rfl
  | some l =>
    show c ≤ if e ≠ l then c + (gapE : ℚ) else c
    by_cases he : e ≠ l
    · rw [if_pos he]; linarith
    · rw [if_neg he]

/-- Every time recorded by the walk is at least the cursor the walk started
from (durations and gaps nonnegative). -/
theorem walkKeys_time_ge {gapH gapE : ℤ} (hH : 0 ≤ gapH) (hE : 0 ≤ gapE) :
    ∀ kds : List ((Nat × Nat) × ℚ), (∀ p ∈ kds, 0 ≤ p.2) →
      ∀ (last : Option Nat) (c : ℚ), ∀ p ∈ walkKeys gapH gapE kds last c, c ≤ p.2 := by
  intro kds
  induction kds with
  | nil => intro _ last c p hp; simp [walkKeys] at hp
  | cons q kds ih =>
    intro hd last c p hp
    have hgH : (0 : ℚ) ≤ (gapH : ℚ) := by exact_mod_cast hH
    have hq0 : 0 ≤ q.2 := hd q (List.mem_cons_self q kds)
    have hb := bumpE_ge hE last q.1.1 c
    unfold walkKeys at hp
    rcases List.mem_cons.1 hp with h1 | h1
    · subst h1; exact hb
    · have hc2 : c ≤ bumpE gapE last q.1.1 c + q.2 + (gapH : ℚ) := by linarith
      exact le_trans hc2 (ih (fun p2 hp2 => hd p2 (List.mem_cons_of_mem _ hp2)) _ _ p h1)

theorem lookupKey_mem {k : Nat × Nat} {l : List ((Nat × Nat) × ℚ)} {t : ℚ}
    (h : lookupKey k l = some t) : ∃ p ∈ l, p.1 = k ∧ p.2 = t := by
  unfold lookupKey at h
  simp only [Option.map_eq_some'] at h
  obtain ⟨p, hf, ht⟩ := h
  have hpk := List.find?_some hf
  simp only [beq_iff_eq] at hpk
  exact ⟨p, List.mem_of_find?_eq_some hf, hpk, ht⟩

theorem lookupKey_cons {k : Nat × Nat} {q : (Nat × Nat) × ℚ} {l : List ((Nat × Nat) × ℚ)} :
    lookupKey k (q :: l) = if q.1 = k then some q.2 else lookupKey k l := by
  unfold lookupKey
  rw [List.find?_cons]
  by_cases hq : q.1 = k
  · simp [hq]
  · have : (q.1 == k) = false := beq_false_of_ne hq
    simp [this, hq]

/-- The walk's output keys are the input keys. -/
theorem walkKeys_map_fst (gapH gapE : ℤ) :
    ∀ (kds : List ((Nat × Nat) × ℚ)) (last : Option Nat) (c : ℚ),
      (walkKeys gapH gapE kds last c).map Prod.fst = kds.map Prod.fst := by
  intro kds
  induction kds with
  | nil => intro last c; rfl
  | cons q kds ih => intro last c; simp [walkKeys, ih]

/-- Monotonicity of the walk along strictly increasing keys with
nonnegative durations and gaps. -/
theorem walkKeys_mono {gapH gapE : ℤ} (hH : 0 ≤ gapH) (hE : 0 ≤ gapE) :
    ∀ kds : List ((Nat × Nat) × ℚ),
      (kds.map Prod.fst).Pairwise keyLT →
      (∀ p ∈ kds, 0 ≤ p.2) →
      ∀ (last : Option Nat) (c : ℚ) (k1 : Nat × Nat) (t1 : ℚ) (k2 : Nat × Nat) (t2 : ℚ),
        keyLT k1 k2 →
        lookupKey k1 (walkKeys gapH gapE kds last c) = some t1 →
        lookupKey k2 (walkKeys gapH gapE kds last c) = some t2 →
        t1 ≤ t2 := by
  intro kds
  induction kds with
  | nil =>
    intro _ _ last c k1 t1 k2 t2 _ h1 _
    simp [walkKeys, lookupKey] at h1
  | cons q kds ih =>
    intro hpw hd last c k1 t1 k2 t2 hlt h1 h2
    have hgH : (0 : ℚ) ≤ (gapH : ℚ) := by exact_mod_cast hH
    have hq0 : 0 ≤ q.2 := hd q (List.mem_cons_self q kds)
    rw [List.map_cons] at hpw
    have hpc := List.pairwise_cons.1 hpw
    have hdtail : ∀ p ∈ kds, 0 ≤ p.2 := fun p hp => hd p (List.mem_cons_of_mem _ hp)
    unfold walkKeys at h1 h2
    rw [lookupKey_cons] at h1 h2
    by_cases e1 : q.1 = k1
    · rw [if_pos e1] at h1
      have ht1 : t1 = bumpE gapE last q.1.1 c := (Option.some.inj h1).symm
      have e2 : ¬ q.1 = k2 := by
        intro he
        exact keyLT_irrefl k1 (by rw [← e1] at hlt; rw [he] at hlt; rw [← e1, he]; exact hlt)
      rw [if_neg e2] at h2
      obtain ⟨p, hp, hpk, hpt⟩ := lookupKey_mem h2
      have hge := walkKeys_time_ge hH hE kds hdtail (some q.1.1)
        (bumpE gapE last q.1.1 c + q.2 + (gapH : ℚ)) p hp
      rw [hpt] at hge
      rw [ht1]
      linarith
    · rw [if_neg e1] at h1
      by_cases e2 : q.1 = k2
      · obtain ⟨p, hp, hpk, hpt⟩ := lookupKey_mem h1
        have hk1mem : k1 ∈ kds.map Prod.fst := by
          rw [← walkKeys_map_fst gapH gapE kds (some q.1.1)
            (bumpE gapE last q.1.1 c + q.2 + (gapH : ℚ))]
          exact List.mem_map.2 ⟨p, hp, hpk⟩
        have hq1k1 : keyLT q.1 k1 := hpc.1 k1 hk1mem
        exact absurd (keyLT_trans hq1k1 (e2 ▸ hlt)) (keyLT_irrefl q.1)
      · rw [if_neg e2] at h2
        exact ih hpc.2 hdtail (some q.1.1)
          (bumpE gapE last q.1.1 c + q.2 + (gapH : ℚ)) k1 t1 k2 t2 hlt h1 h2

/-! ## Claim C5 -/

/-- C5 counterexample: a record list with the malformed seed "abc" makes
the estimator abort (the ValueError from float() inside _t2s is not caught
in timeline_estimate), instead of treating the seed as absent with the
60-second default. -/
theorem c5_counterexample : timelineEstimate [recBadSeed] 0 20 60 = none := by
  with_unfolding_all rfl

/-- C5 amended: for every record list whose present nonempty seed strings
all parse (as is the case for every parser-produced list, whose seeds match
the seed regex), the estimate completes; and a heat key with no (truthy)
first seed gets the 60-second default duration.  A malformed seed string
aborts the whole estimate rather than falling back. -/
theorem c5_estimate_total (evs : List Record) (startSec : ℚ) (gapH gapE : ℤ)
    (hseed : ∀ r ∈ evs, ∀ s : List Char, r.seed_time = some s → s ≠ [] →
      (t2sQ s).isSome) :
    (timelineEstimate evs startSec gapH gapE).isSome ∧
      ∀ k : Nat × Nat, firstSeen (sortRecs evs) k = none →
        durOf (sortRecs evs) k = some 60 := by
  constructor
  · have hs : ∀ r ∈ sortRecs evs, ∀ s : List Char, r.seed_time = some s → s ≠ [] →
        ∃ q, t2sQ s = some q ∧ True := by
      intro r hr s hsome hne
      have hr2 : r ∈ evs := ((List.perm_insertionSort recLE evs).mem_iff).1 hr
      obtain ⟨q, hq⟩ := Option.isSome_iff_exists.1 (hseed r hr2 s hsome hne)
      exact ⟨q, hq, trivial⟩
    obtain ⟨kds, hkds, -, -⟩ := optMapList_durOf (sortedKeys (sortRecs evs))
      (fun k _ => durOf_good trivial hs k)
    unfold timelineEstimate
    rw [hkds]
    rfl
  · intro k hk
    unfold durOf
    rw [hk]

/-- C5 witness. -/
theorem c5_witness :
    (timelineEstimate evsD 28800 20 60).isSome ∧
      durOf (sortRecs evsD) (9, 9) = some 60 := by
  have hseed : ∀ r ∈ evsD, ∀ s : List Char, r.seed_time = some s → s ≠ [] →
      (t2sQ s).isSome := by
    intro r hr s hsome hne
    simp [evsD] at hr
    rcases hr with h | h | h <;> (subst h; simp at hsome)
  exact ⟨(c5_estimate_total evsD 28800 20 60 hseed).1,
    (c5_estimate_total evsD 28800 20 60 hseed).2 (9, 9) (by decide)⟩

/-! ## Claim C6 -/

/-- C6 counterexample: with the heat gap set to -1000 seconds (the form
field is an arbitrary int), the estimator's output is not monotone: heat
(1,2) is scheduled 940 seconds before heat (1,1). -/
theorem c6_counterexample :
    timelineEstimate evsD 28800 (-1000) 0 =
      some [((1, 1), 28800), ((1, 2), 27860), ((2, 1), 26920)] ∧
      keyLT (1, 1) (1, 2) ∧ ¬ ((28800 : ℚ) ≤ 27860) := by
  refine ⟨by with_unfolding_all rfl, by decide, by norm_num⟩

/-- C6 amended: when both gap parameters are nonnegative (as the defaults
20 and 60 are) and every nonempty seed of the record list parses to a
nonnegative duration (as every parser-produced seed, made of digit runs,
does), the estimate succeeds and is monotone: the start of a later heat key
is at least the start of an earlier one. -/
theorem c6_monotone (evs : List Record) (startSec : ℚ) (gapH gapE : ℤ)
    (hH : 0 ≤ gapH) (hE : 0 ≤ gapE)
    (hseed : ∀ r ∈ evs, ∀ s : List Char, r.seed_time = some s → s ≠ [] →
      ∃ q, t2sQ s = some q ∧ 0 ≤ q) :
    (timelineEstimate evs startSec gapH gapE).isSome ∧
      ∀ (k1 : Nat × Nat) (t1 : ℚ) (k2 : Nat × Nat) (t2 : ℚ), keyLT k1 k2 →
        (timelineEstimate evs startSec gapH gapE).bind (lookupKey k1) = some t1 →
        (timelineEstimate evs startSec gapH gapE).bind (lookupKey k2) = some t2 →
        t1 ≤ t2 := by
  have hs : ∀ r ∈ sortRecs evs, ∀ s : List Char, r.seed_time = some s → s ≠ [] →
      ∃ q, t2sQ s = some q ∧ 0 ≤ q := by
    intro r hr
    exact hseed r (((List.perm_insertionSort recLE evs).mem_iff).1 hr)
  obtain ⟨kds, hkds, hmap, hall⟩ := optMapList_durOf (sortedKeys (sortRecs evs))
    (fun k _ => durOf_good (by norm_num) hs k)
  have hest : timelineEstimate evs startSec gapH gapE =
      some (walkKeys gapH gapE kds none startSec) := by
    unfold timelineEstimate
    rw [hkds]
    rfl
  constructor
  · rw [hest]; rfl
  · intro k1 t1 k2 t2 hlt h1 h2
    rw [hest, Option.some_bind] at h1 h2
    exact walkKeys_mono hH hE kds (by rw [hmap]; exact sortedKeys_pairwise _)
      (fun p hp => (hall p hp).2) none startSec k1 t1 k2 t2 hlt h1 h2

/-- C6 witness. -/
theorem c6_witness :
    (timelineEstimate evsD 28800 20 60).isSome ∧ (28800 : ℚ) ≤ 28880 := by
  have hseed : ∀ r ∈ evsD, ∀ s : List Char, r.seed_time = some s → s ≠ [] →
      ∃ q, t2sQ s = some q ∧ 0 ≤ q := by
    intro r hr s hsome hne
    simp [evsD] at hr
    rcases hr with h | h | h <;> (subst h; simp at hsome)
  have h := c6_monotone evsD 28800 20 60 (by norm_num) (by norm_num) hseed
  refine ⟨h.1, h.2 (1, 1) 28800 (1, 2) 28880 (by decide) ?_ ?_⟩
  · with_unfolding_all rfl
  · with_unfolding_all rfl

end Swim
